import Mathlib

/-!
Shallow embedding of `src/kashgari/processors/sequence_processor.py`
(`SequenceProcessor`): vocabulary construction, forward transform and
inverse transform, together with proofs of the specification claims.

Python dictionaries are modelled as association lists in insertion order
(`alookup` is first-match lookup; since insertion either updates an existing
entry in place or appends a fresh key, keys stay unique and first-match
agrees with Python lookup).  Errors (`KeyError`, `ValueError`, `IndexError`)
are modelled with `Except PyErr`.
-/

deriving instance DecidableEq for Except

/-- A Python exception, carrying the information the raised value carries. -/
inductive PyErr where
  /-- `KeyError` on a string key (missing token). -/
  | keyError (token : String) : PyErr
  /-- `KeyError` on an integer key (missing index in `idx2vocab`). -/
  | keyErrorIdx (idx : Nat) : PyErr
  /-- `ValueError` (from `max([])` on an empty batch). -/
  | valueError : PyErr
  /-- `IndexError` (from `lengths[index]` out of range). -/
  | indexError : PyErr
deriving DecidableEq

/-- First-match lookup in an association list; models `d[k]` / `d.get(k)`
on a Python dict whose entries are listed in insertion order. -/
def alookup {α β : Type} [DecidableEq α] : List (α × β) → α → Option β
  | [], _ => none
  | (k, v) :: rest, t => if k = t then some v else alookup rest t

/-- Python dict assignment `d[k] = v`: update the entry in place if the key
is present, otherwise append it at the end. -/
def dinsert {α β : Type} [DecidableEq α] : List (α × β) → α → β → List (α × β)
  | [], k, v => [(k, v)]
  | (k', v') :: rest, k, v =>
      if k' = k then (k', v) :: rest else (k', v') :: dinsert rest k v

/-- Python `dict(pairs)` / `collections.OrderedDict(pairs)`: fold the pair
list into an empty dict with `dinsert` (later duplicates overwrite). -/
def dictOfPairs {α β : Type} [DecidableEq α] (l : List (α × β)) : List (α × β) :=
  l.foldl (fun m kv => dinsert m kv.1 kv.2) []

/-- Modelled from the spec: the reserved padding token.  The four reserved
token constants live on the parent class `ABCProcessor`, which is not part
of the provided source; the spec fixes their roles PAD/UNK/BOS/EOS. -/
def token_pad : String := "[PAD]"

/-- Modelled from the spec: the reserved unknown-token fallback token. -/
def token_unk : String := "[UNK]"

/-- Modelled from the spec: the reserved begin-of-sequence token. -/
def token_bos : String := "[BOS]"

/-- Modelled from the spec: the reserved end-of-sequence token. -/
def token_eos : String := "[EOS]"

/-- State of a `SequenceProcessor` instance (its attributes). -/
structure SequenceProcessor where
  build_in_vocab : String
  min_count : Nat
  allow_unk : Bool
  build_vocab_from_labels : Bool
  /-- `self.vocab2idx`, a Python dict token -> index. -/
  vocab2idx : List (String × Nat)
  /-- `self.idx2vocab`, a Python dict index -> token. -/
  idx2vocab : List (Nat × String)
  /-- `self._initial_vocab_dic`. -/
  initial_vocab_dic : List (String × Nat)
  /-- `self._showed_seq_len_warning`. -/
  showed_seq_len_warning : Bool
deriving DecidableEq

/-- The mode-dependent seed dict built in `__init__` (lines 57-69). -/
def initialVocab (build_in_vocab : String) : List (String × Nat) :=
  if build_in_vocab = "text" then
    [(token_pad, 0), (token_unk, 1), (token_bos, 2), (token_eos, 3)]
  else if build_in_vocab = "labeling" then
    [(token_pad, 0)]
  else []

/-- `SequenceProcessor.__init__` (lines 39-71).  `kwargs_allow_unk` stands
for an `allow_unk` value passed through `**kwargs`: line 54 assigns
`self.allow_unk = True` unconditionally, so the parameter is dead.
The parent class `ABCProcessor` is not part of the provided source; per the
spec the mapping starts empty and is built once, so `vocab2idx`/`idx2vocab`
start empty (modelled from the spec). -/
def SequenceProcessor.init (build_in_vocab : String) (min_count : Nat)
    (build_vocab_from_labels : Bool) (_kwargs_allow_unk : Option Bool) :
    SequenceProcessor :=
  { build_in_vocab := build_in_vocab
    min_count := min_count
    allow_unk := true
    build_vocab_from_labels := build_vocab_from_labels
    vocab2idx := []
    idx2vocab := []
    initial_vocab_dic := initialVocab build_in_vocab
    showed_seq_len_warning := false }

/-- One step of the counting loop (lines 85-87):
`token2count[token] = token2count.get(token, 0) + 1`. -/
def bump : List (String × Nat) → String → List (String × Nat)
  | [], t => [(t, 1)]
  | (k, c) :: rest, t =>
      if k = t then (k, c + 1) :: rest else (k, c) :: bump rest t

/-- The full counting pass over the corpus (lines 80-87): for each
`(sentence, label)` pair count the tokens of the label sequence when
`build_vocab_from_labels` is set, else of the sentence. -/
def countCorpus (fromLabels : Bool)
    (corpus : List (List String × List String)) : List (String × Nat) :=
  corpus.foldl
    (fun m sl => (if fromLabels then sl.2 else sl.1).foldl bump m) []

/-- Insert an entry into a list that is sorted by descending count, before
the first entry of count `≤` its own (so equal-count entries already present
keep priority over nothing — the inserted entry goes in front of them,
which together with the right-fold below yields a stable sort). -/
def insertDesc (x : String × Nat) : List (String × Nat) → List (String × Nat)
  | [] => [x]
  | y :: ys => if y.2 ≤ x.2 then x :: y :: ys else y :: insertDesc x ys

/-- `sorted(token2count.items(), key=operator.itemgetter(1), reverse=True)`
(lines 89-91): a stable sort by descending count (Python's `sorted` is
stable, and `reverse=True` does not reorder equal elements). -/
def sortDesc : List (String × Nat) → List (String × Nat)
  | [] => []
  | x :: xs => insertDesc x (sortDesc xs)

/-- The vocabulary-extension loop (lines 94-96): walk the sorted count
table and append each token not already present whose count meets
`min_count`, assigning it index `len(vocab2idx)`. -/
def addTokens (min_count : Nat) :
    List (String × Nat) → List (String × Nat) → List (String × Nat)
  | [], vocab => vocab
  | (t, c) :: rest, vocab =>
      if alookup vocab t = none ∧ min_count ≤ c then
        addTokens min_count rest (vocab ++ [(t, vocab.length)])
      else
        addTokens min_count rest vocab

/-- `SequenceProcessor.build_vocab_generator` (lines 73-103).  The corpus
generator is modelled as the list of `(sentence, label)` pairs it yields.
`vocab2idx = self._initial_vocab_dic` aliases the dict object, so the
mutated dict is also the new value of `_initial_vocab_dic`.  The final
logging (lines 100-103) has no effect on the state. -/
def SequenceProcessor.build_vocab_generator (p : SequenceProcessor)
    (generator : List (List String × List String)) : SequenceProcessor :=
  if p.vocab2idx.isEmpty then
    let token2count := countCorpus p.build_vocab_from_labels generator
    let sorted_token2count := dictOfPairs (sortDesc token2count)
    let vocab2idx := addTokens p.min_count sorted_token2count p.initial_vocab_dic
    { p with
      vocab2idx := vocab2idx
      initial_vocab_dic := vocab2idx
      idx2vocab := dictOfPairs (vocab2idx.map (fun kv => (kv.2, kv.1))) }
  else p

/-- Line 122: `seq = [self.token_bos] + seq + [self.token_eos]`. -/
def wrapSeq (seq : List String) : List String :=
  token_bos :: (seq ++ [token_eos])

/-- Strict per-token lookup, `[self.vocab2idx[token] for token in seq]`
(line 127): the first missing token raises `KeyError(token)`. -/
def lookupAll (vocab : List (String × Nat)) : List String → Except PyErr (List Nat)
  | [] => .ok []
  | t :: rest =>
      match alookup vocab t with
      | none => .error (.keyError t)
      | some i =>
          match lookupAll vocab rest with
          | .error e => .error e
          | .ok is => .ok (i :: is)

/-- Numerization of one wrapped sequence (lines 123-127).  With
`allow_unk`, `unk_index = self.vocab2idx[self.token_unk]` is computed first
(raising `KeyError` if UNK is absent), then each token maps through
`self.vocab2idx.get(token, unk_index)`. -/
def numerizeSeq (vocab : List (String × Nat)) (allow_unk : Bool)
    (seq : List String) : Except PyErr (List Nat) :=
  if allow_unk then
    match alookup vocab token_unk with
    | none => .error (.keyError token_unk)
    | some unk_index => .ok (seq.map (fun t => (alookup vocab t).getD unk_index))
  else lookupAll vocab seq

/-- The numerization loop over all samples (lines 120-127), wrapping each
sequence with BOS/EOS; the first raised error aborts the whole call. -/
def numerizeAll (vocab : List (String × Nat)) (allow_unk : Bool) :
    List (List String) → Except PyErr (List (List Nat))
  | [] => .ok []
  | seq :: rest =>
      match numerizeSeq vocab allow_unk (wrapSeq seq) with
      | .error e => .error e
      | .ok ids =>
          match numerizeAll vocab allow_unk rest with
          | .error e => .error e
          | .ok t => .ok (ids :: t)

/-- `pad_sequences(_, seq_length, padding='post', truncating='post')` on one
row (line 129): truncate at the end to `width`, then pad at the end with the
default pad value `0`. -/
def padSeq (width : Nat) (s : List Nat) : List Nat :=
  s.take width ++ List.replicate (width - s.length) 0

/-- `max([len(i) for i in samples])` (line 112), defined on token batches. -/
def maxLen (samples : List (List String)) : Nat :=
  (samples.map List.length).foldl Nat.max 0

/-- Lines 113-114: `if max_position and seq_length > max_position:
seq_length = max_position` — note `0`/`None` are falsy, so a zero
`max_position` never clamps. -/
def clampLen (L : Nat) (max_position : Option Nat) : Nat :=
  match max_position with
  | some m => if m ≠ 0 ∧ m < L then m else L
  | none => L

/-- The value returned by `transform`: the token-id array and, when
`segment` was requested, the all-zero segment-id array (lines 130-136). -/
structure TransformOutput where
  token_ids : List (List Nat)
  segment_ids : Option (List (List Nat))
deriving DecidableEq

/-- Lines 120-136: numerize, pad, and assemble the output arrays.
`np.zeros(token_ids.shape)` is an all-zero array of the same shape. -/
def mkOutput (vocab : List (String × Nat)) (allow_unk : Bool) (L : Nat)
    (samples : List (List String)) (segment : Bool) :
    Except PyErr TransformOutput :=
  match numerizeAll vocab allow_unk samples with
  | .error e => .error e
  | .ok ns =>
      let token_ids := ns.map (padSeq L)
      .ok { token_ids := token_ids
            segment_ids :=
              if segment then some (token_ids.map (fun r => r.map (fun _ => 0)))
              else none }

/-- `SequenceProcessor.transform` (lines 105-136), as a state transformer:
it returns the updated processor (Python mutates `self` in place before any
later exception) together with the result or the raised error.  When
`seq_length` is `None` it is inferred as the maximum raw sample length
(`max([])` raises `ValueError` on an empty batch, before the warning flag is
touched), clamped by a truthy `max_position`; the one-time warning flag is
then set (the `if not self._showed_seq_len_warning` guard only silences the
repeated log message — the stored flag value is `True` either way). -/
def SequenceProcessor.transform (p : SequenceProcessor)
    (samples : List (List String)) (seq_length : Option Nat)
    (max_position : Option Nat) (segment : Bool) :
    SequenceProcessor × Except PyErr TransformOutput :=
  match seq_length with
  | some L => (p, mkOutput p.vocab2idx p.allow_unk L samples segment)
  | none =>
      if samples.isEmpty then (p, .error .valueError)
      else
        let L := clampLen (maxLen samples) max_position
        ({ p with showed_seq_len_warning := true },
         mkOutput p.vocab2idx p.allow_unk L samples segment)

/-- `[self.idx2vocab[idx] for idx in seq]` (lines 146-147): the first index
missing from the reverse mapping raises `KeyError(idx)`. -/
def decodeSeq (idx2vocab : List (Nat × String)) : List Nat → Except PyErr (List String)
  | [] => .ok []
  | i :: rest =>
      match alookup idx2vocab i with
      | none => .error (.keyErrorIdx i)
      | some t =>
          match decodeSeq idx2vocab rest with
          | .error e => .error e
          | .ok ts => .ok (t :: ts)

/-- The loop body of `inverse_transform` (lines 144-152), threading the
running `enumerate` index: decode each row, then either slice
`labels_[1:lengths[index]]` (with `lengths[index]` raising `IndexError`
when out of range; a Python slice `[1:n]` is `drop 1` then `take (n-1)`)
or drop the final element (`labels_[:-1]`). -/
def inverseGo (idx2vocab : List (Nat × String)) (lengths : Option (List Nat))
    (index : Nat) : List (List Nat) → Except PyErr (List (List String))
  | [] => .ok []
  | seq :: rest =>
      match decodeSeq idx2vocab seq with
      | .error e => .error e
      | .ok labels_ =>
          match
            (match lengths with
             | some ls =>
                 match ls.get? index with
                 | none => Except.error PyErr.indexError
                 | some n => Except.ok ((labels_.drop 1).take (n - 1))
             | none => Except.ok labels_.dropLast) with
          | .error e => .error e
          | .ok sliced =>
              match inverseGo idx2vocab lengths (index + 1) rest with
              | .error e => .error e
              | .ok t => .ok (sliced :: t)

/-- `SequenceProcessor.inverse_transform` (lines 138-153), as a state
transformer; it reads but never writes processor state. -/
def SequenceProcessor.inverse_transform (p : SequenceProcessor)
    (labels : List (List Nat)) (lengths : Option (List Nat)) :
    SequenceProcessor × Except PyErr (List (List String)) :=
  (p, inverseGo p.idx2vocab lengths 0 labels)

/-- The corpus of the spec's end-to-end example. -/
def exampleCorpus : List (List String × List String) :=
  [(["a", "b", "a"], ["O", "O", "O"]), (["b", "b"], ["O", "O"])]

/-- The processor of the spec's end-to-end example: mode "text",
`min_count = 2`, vocabulary built from `exampleCorpus`. -/
def exampleProc : SequenceProcessor :=
  (SequenceProcessor.init "text" 2 false none).build_vocab_generator exampleCorpus






/-- The stream of tokens actually fed to the counter, in corpus order. -/
def tokenStream (fromLabels : Bool) :
    List (List String × List String) → List String
  | [] => []
  | sl :: rest => (if fromLabels then sl.2 else sl.1) ++ tokenStream fromLabels rest

/-- Number of occurrences of a token in a stream. -/
def countTok : List String → String → Nat
  | [], _ => 0
  | s :: rest, t => (if s = t then 1 else 0) + countTok rest t

/- ### Association-list lemmas -/

theorem alookup_append {α β : Type} [DecidableEq α] (l1 l2 : List (α × β)) (k : α) :
    alookup (l1 ++ l2) k =
      match alookup l1 k with
      | some v => some v
      | none => alookup l2 k := by
  induction l1 with
  | nil => simp [alookup]
  | cons kv rest ih =>
      cases kv with
      | mk a b =>
          simp only [List.cons_append, alookup]
          by_cases h : a = k <;> simp [h, ih]

theorem alookup_eq_none {α β : Type} [DecidableEq α] (l : List (α × β)) (k : α) :
    alookup l k = none ↔ k ∉ l.map Prod.fst := by
  induction l with
  | nil => simp [alookup]
  | cons kv rest ih =>
      cases kv with
      | mk a b =>
          simp only [alookup, List.map_cons, List.mem_cons]
          by_cases h : a = k
          · subst h
            simp
          · have hka : ¬ k = a := fun he => h he.symm
            simp [h, ih, hka]

theorem alookup_isSome {α β : Type} [DecidableEq α] (l : List (α × β)) (k : α) :
    (alookup l k).isSome ↔ k ∈ l.map Prod.fst := by
  rcases h : alookup l k with _ | v
  · simp [(alookup_eq_none l k).1 h]
  · simp only [Option.isSome_some, true_iff]
    by_contra hk
    rw [← alookup_eq_none l k] at hk
    simp [hk] at h

theorem alookup_mem {α β : Type} [DecidableEq α] {l : List (α × β)} {k : α} {v : β}
    (h : alookup l k = some v) : (k, v) ∈ l := by
  induction l with
  | nil => simp [alookup] at h
  | cons kv rest ih =>
      cases kv with
      | mk a b =>
          simp only [alookup] at h
          by_cases ha : a = k
          · simp [ha] at h
            simp [ha, h]
          · simp [ha] at h
            exact List.mem_cons_of_mem _ (ih h)

theorem alookup_of_mem_nodup {α β : Type} [DecidableEq α] {l : List (α × β)} {k : α} {v : β}
    (hn : (l.map Prod.fst).Nodup) (h : (k, v) ∈ l) : alookup l k = some v := by
  induction l with
  | nil => simp at h
  | cons kv rest ih =>
      cases kv with
      | mk a b =>
          simp only [List.map_cons, List.nodup_cons] at hn
          rcases List.mem_cons.1 h with h' | h'
          · injection h' with h1 h2
            subst h1
            subst h2
            simp [alookup]
          · have hak : a ≠ k := by
              rintro rfl
              exact hn.1 (List.mem_map.2 ⟨(a, v), h', rfl⟩)
            simp [alookup, hak, ih hn.2 h']

theorem dinsert_of_not_mem {α β : Type} [DecidableEq α] {l : List (α × β)} {k : α} (v : β)
    (h : k ∉ l.map Prod.fst) : dinsert l k v = l ++ [(k, v)] := by
  induction l with
  | nil => simp [dinsert]
  | cons kv rest ih =>
      cases kv with
      | mk a b =>
          simp only [List.map_cons, List.mem_cons] at h
          push_neg at h
          have hak : ¬ a = k := fun he => h.1 he.symm
          simp [dinsert, hak, ih h.2]

theorem foldl_dinsert_append {α β : Type} [DecidableEq α] (l : List (α × β)) :
    ∀ m : List (α × β), (l.map Prod.fst).Nodup →
      (∀ a ∈ l.map Prod.fst, a ∉ m.map Prod.fst) →
      l.foldl (fun m kv => dinsert m kv.1 kv.2) m = m ++ l := by
  induction l with
  | nil => intro m _ _; simp
  | cons kv rest ih =>
      intro m hn hd
      cases kv with
      | mk a b =>
          simp only [List.map_cons, List.nodup_cons] at hn
          have ha : a ∉ m.map Prod.fst := hd a (by simp)
          have hstep : dinsert m (a, b).1 (a, b).2 = m ++ [(a, b)] :=
            dinsert_of_not_mem b ha
          simp only [List.foldl_cons, hstep]
          rw [ih (m ++ [(a, b)]) hn.2 ?_]
          · simp
          · intro x hx
            rw [List.map_append, List.mem_append]
            push_neg
            constructor
            · exact hd x (List.mem_cons_of_mem _ hx)
            · simp only [List.map_cons, List.map_nil, List.mem_singleton]
              rintro rfl
              exact hn.1 hx

theorem dictOfPairs_eq_self {α β : Type} [DecidableEq α] (l : List (α × β))
    (hn : (l.map Prod.fst).Nodup) : dictOfPairs l = l := by
  have := foldl_dinsert_append l [] hn (by simp)
  simpa [dictOfPairs] using this

/- ### Counting lemmas -/

theorem keys_bump (m : List (String × Nat)) (t : String) :
    (bump m t).map Prod.fst =
      if t ∈ m.map Prod.fst then m.map Prod.fst else m.map Prod.fst ++ [t] := by
  induction m with
  | nil => simp [bump]
  | cons kv rest ih =>
      cases kv with
      | mk a c =>
          simp only [bump, List.map_cons]
          by_cases h : a = t
          · simp [h]
          · simp only [h, if_false, List.map_cons, ih, List.mem_cons]
            by_cases h2 : t ∈ rest.map Prod.fst
            · simp [h2, Ne.symm h]
            · simp [h2, Ne.symm h]

theorem alookup_bump_self (m : List (String × Nat)) (t : String) :
    alookup (bump m t) t = some ((alookup m t).getD 0 + 1) := by
  induction m with
  | nil => simp [bump, alookup]
  | cons kv rest ih =>
      cases kv with
      | mk a c =>
          simp only [bump, alookup]
          by_cases h : a = t <;> simp [h, alookup, ih]

theorem alookup_bump_other (m : List (String × Nat)) {s t : String} (h : s ≠ t) :
    alookup (bump m t) s = alookup m s := by
  induction m with
  | nil => simp [bump, alookup, Ne.symm h]
  | cons kv rest ih =>
      cases kv with
      | mk a c =>
          by_cases ha : a = t
          · subst ha
            simp [bump, alookup, Ne.symm h]
          · simp only [bump, ha, if_false, alookup]
            by_cases has : a = s <;> simp [has, ih]

theorem nodup_keys_bump (m : List (String × Nat)) (t : String)
    (hn : (m.map Prod.fst).Nodup) : ((bump m t).map Prod.fst).Nodup := by
  rw [keys_bump]
  by_cases h : t ∈ m.map Prod.fst
  · simpa [h]
  · simpa [h, List.nodup_append]

/-- Fold the per-token counter over a flat token stream. -/
def bumpList (m : List (String × Nat)) (l : List String) : List (String × Nat) :=
  l.foldl bump m

theorem bumpList_append (m : List (String × Nat)) (l1 l2 : List String) :
    bumpList m (l1 ++ l2) = bumpList (bumpList m l1) l2 := by
  simp [bumpList, List.foldl_append]

theorem countCorpus_eq_bumpList (fromLabels : Bool)
    (corpus : List (List String × List String)) :
    countCorpus fromLabels corpus = bumpList [] (tokenStream fromLabels corpus) := by
  suffices h : ∀ m, corpus.foldl
      (fun m sl => (if fromLabels then sl.2 else sl.1).foldl bump m) m =
      bumpList m (tokenStream fromLabels corpus) from h []
  induction corpus with
  | nil => intro m; simp [tokenStream, bumpList]
  | cons sl rest ih =>
      intro m
      simp only [List.foldl_cons, tokenStream, bumpList_append]
      exact ih _

theorem alookup_bumpList_getD (l : List String) :
    ∀ (m : List (String × Nat)) (t : String),
      (alookup (bumpList m l) t).getD 0 = (alookup m t).getD 0 + countTok l t := by
  induction l with
  | nil => intro m t; simp [bumpList, countTok]
  | cons s rest ih =>
      intro m t
      have hfold : bumpList m (s :: rest) = bumpList (bump m s) rest := rfl
      rw [hfold, ih (bump m s) t]
      simp only [countTok]
      by_cases h : s = t
      · subst h
        rw [alookup_bump_self]
        simp [Nat.add_assoc]
      · rw [alookup_bump_other m (fun he => h he.symm)]
        simp [h]

theorem alookup_bumpList_isSome (l : List String) :
    ∀ (m : List (String × Nat)) (t : String),
      (alookup (bumpList m l) t).isSome ↔ (alookup m t).isSome ∨ t ∈ l := by
  induction l with
  | nil => intro m t; simp [bumpList]
  | cons s rest ih =>
      intro m t
      have hfold : bumpList m (s :: rest) = bumpList (bump m s) rest := rfl
      rw [hfold, ih (bump m s) t, List.mem_cons]
      by_cases h : s = t
      · subst h
        simp [alookup_bump_self]
      · have h' : ¬ t = s := fun he => h he.symm
        rw [alookup_bump_other m h']
        simp [h']

theorem keys_bumpList (l : List String) :
    ∀ m : List (String × Nat), ∃ ext : List String,
      (bumpList m l).map Prod.fst = m.map Prod.fst ++ ext := by
  induction l with
  | nil => intro m; exact ⟨[], by simp [bumpList]⟩
  | cons s rest ih =>
      intro m
      obtain ⟨ext, hext⟩ := ih (bump m s)
      have hfold : bumpList m (s :: rest) = bumpList (bump m s) rest := rfl
      rw [keys_bump] at hext
      by_cases h : s ∈ m.map Prod.fst
      · exact ⟨ext, by rw [hfold]; rwa [if_pos h] at hext⟩
      · refine ⟨s :: ext, ?_⟩
        rw [hfold]
        rw [if_neg h] at hext
        simpa using hext

theorem nodup_keys_bumpList (l : List String) :
    ∀ m : List (String × Nat), (m.map Prod.fst).Nodup →
      ((bumpList m l).map Prod.fst).Nodup := by
  induction l with
  | nil => intro m hm; simp [bumpList, hm]
  | cons s rest ih =>
      intro m hm
      exact ih (bump m s) (nodup_keys_bump m s hm)

theorem countTok_pos (l : List String) (t : String) : t ∈ l ↔ 1 ≤ countTok l t := by
  induction l with
  | nil => simp [countTok]
  | cons s rest ih =>
      simp only [List.mem_cons, countTok]
      by_cases h : s = t
      · subst h
        simp
      · have h' : ¬ t = s := fun he => h he.symm
        simp [h, h', ih]

theorem alookup_countCorpus (fl : Bool)
    (corpus : List (List String × List String)) (t : String) :
    alookup (countCorpus fl corpus) t =
      if t ∈ tokenStream fl corpus
      then some (countTok (tokenStream fl corpus) t) else none := by
  rw [countCorpus_eq_bumpList]
  by_cases h : t ∈ tokenStream fl corpus
  · have hs : (alookup (bumpList [] (tokenStream fl corpus)) t).isSome :=
      (alookup_bumpList_isSome _ [] t).2 (Or.inr h)
    obtain ⟨c, hc⟩ := Option.isSome_iff_exists.1 hs
    have hg := alookup_bumpList_getD (tokenStream fl corpus) [] t
    rw [hc] at hg
    simp only [alookup, Option.getD_some, Option.getD_none] at hg
    rw [hc, if_pos h, hg]
    simp
  · have hs : ¬ (alookup (bumpList [] (tokenStream fl corpus)) t).isSome := by
      rw [alookup_bumpList_isSome]
      simp [alookup, h]
    rw [if_neg h]
    exact Option.not_isSome_iff_eq_none.1 hs

theorem nodup_keys_countCorpus (fl : Bool)
    (corpus : List (List String × List String)) :
    ((countCorpus fl corpus).map Prod.fst).Nodup := by
  rw [countCorpus_eq_bumpList]
  exact nodup_keys_bumpList _ [] (by simp)

/- ### Stable descending sort lemmas -/

/-- Boolean predicate selecting the entries of a given count. -/
def hasCount (c : Nat) (kv : String × Nat) : Bool := kv.2 == c

theorem insertDesc_perm (x : String × Nat) (l : List (String × Nat)) :
    (insertDesc x l).Perm (x :: l) := by
  induction l with
  | nil => simp [insertDesc]
  | cons y ys ih =>
      simp only [insertDesc]
      by_cases h : y.2 ≤ x.2
      · simp [h]
      · rw [if_neg h]
        exact (List.Perm.cons y ih).trans (List.Perm.swap x y ys)

theorem sortDesc_perm (l : List (String × Nat)) : (sortDesc l).Perm l := by
  induction l with
  | nil => simp [sortDesc]
  | cons x xs ih =>
      exact (insertDesc_perm x (sortDesc xs)).trans (List.Perm.cons x ih)

theorem mem_sortDesc {l : List (String × Nat)} {a : String × Nat} :
    a ∈ sortDesc l ↔ a ∈ l := (sortDesc_perm l).mem_iff

theorem pairwise_insertDesc (x : String × Nat) {l : List (String × Nat)}
    (h : l.Pairwise (fun a b => b.2 ≤ a.2)) :
    (insertDesc x l).Pairwise (fun a b => b.2 ≤ a.2) := by
  induction l with
  | nil => simp [insertDesc]
  | cons y ys ih =>
      rw [List.pairwise_cons] at h
      simp only [insertDesc]
      by_cases hle : y.2 ≤ x.2
      · rw [if_pos hle, List.pairwise_cons]
        refine ⟨?_, List.pairwise_cons.2 h⟩
        intro z hz
        rcases List.mem_cons.1 hz with rfl | hz'
        · exact hle
        · exact le_trans (h.1 z hz') hle
      · rw [if_neg hle, List.pairwise_cons]
        refine ⟨?_, ih h.2⟩
        intro z hz
        rcases List.mem_cons.1 ((insertDesc_perm x ys).mem_iff.1 hz) with rfl | hz'
        · omega
        · exact h.1 z hz'

theorem sortDesc_pairwise (l : List (String × Nat)) :
    (sortDesc l).Pairwise (fun a b => b.2 ≤ a.2) := by
  induction l with
  | nil => simp [sortDesc]
  | cons x xs ih => exact pairwise_insertDesc x ih

theorem filter_insertDesc (c : Nat) (x : String × Nat) (l : List (String × Nat)) :
    (insertDesc x l).filter (hasCount c) =
      if x.2 = c then x :: l.filter (hasCount c) else l.filter (hasCount c) := by
  induction l with
  | nil =>
      by_cases h : x.2 = c <;>
        simp [insertDesc, List.filter_cons, hasCount, h]
  | cons y ys ih =>
      simp only [insertDesc]
      by_cases hle : y.2 ≤ x.2
      · rw [if_pos hle]
        by_cases h : x.2 = c <;> simp [List.filter_cons, hasCount, h]
      · rw [if_neg hle, List.filter_cons, List.filter_cons, ih]
        by_cases h : x.2 = c
        · have hy : ¬ y.2 = c := by omega
          simp [hasCount, h, hy]
        · by_cases hy : y.2 = c <;> simp [hasCount, h, hy]

theorem filter_sortDesc (c : Nat) (l : List (String × Nat)) :
    (sortDesc l).filter (hasCount c) = l.filter (hasCount c) := by
  induction l with
  | nil => simp [sortDesc]
  | cons x xs ih =>
      simp only [sortDesc, filter_insertDesc, List.filter_cons, ih]
      by_cases h : x.2 = c <;> simp [hasCount, h]

/- ### Vocabulary-extension lemmas -/

theorem addTokens_append (mc : Nat) (l : List (String × Nat)) :
    ∀ v : List (String × Nat), ∃ s, addTokens mc l v = v ++ s := by
  induction l with
  | nil => intro v; exact ⟨[], by simp [addTokens]⟩
  | cons tc rest ih =>
      intro v
      cases tc with
      | mk t c =>
          simp only [addTokens]
          by_cases h : alookup v t = none ∧ mc ≤ c
          · rw [if_pos h]
            obtain ⟨s, hs⟩ := ih (v ++ [(t, v.length)])
            exact ⟨(t, v.length) :: s, by rw [hs]; simp⟩
          · rw [if_neg h]
            exact ih v

theorem alookup_addTokens_of_some {mc : Nat} {l v : List (String × Nat)}
    {t : String} {i : Nat} (h : alookup v t = some i) :
    alookup (addTokens mc l v) t = some i := by
  obtain ⟨s, hs⟩ := addTokens_append mc l v
  rw [hs, alookup_append, h]

theorem addTokens_mem_lb (mc : Nat) (l : List (String × Nat)) :
    ∀ v : List (String × Nat), (l.map Prod.fst).Nodup →
      ∀ (t : String) (c : Nat), (t, c) ∈ l → mc ≤ c → alookup v t = none →
      ∃ i, alookup (addTokens mc l v) t = some i ∧ v.length ≤ i := by
  induction l with
  | nil => intro v _ t c h; simp at h
  | cons sc rest ih =>
      intro v hn t c hmem hc hnone
      cases sc with
      | mk s cs =>
          simp only [List.map_cons, List.nodup_cons] at hn
          simp only [addTokens]
          rcases List.mem_cons.1 hmem with heq | hmem'
          · injection heq with h1 h2
            subst h1
            subst h2
            rw [if_pos ⟨hnone, hc⟩]
            have hself : alookup (v ++ [(t, v.length)]) t = some v.length := by
              rw [alookup_append, hnone]
              simp [alookup]
            exact ⟨v.length, alookup_addTokens_of_some hself, le_refl _⟩
          · have hst : s ≠ t := by
              rintro rfl
              exact hn.1 (List.mem_map.2 ⟨(s, c), hmem', rfl⟩)
            by_cases hcond : alookup v s = none ∧ mc ≤ cs
            · rw [if_pos hcond]
              have hnone' : alookup (v ++ [(s, v.length)]) t = none := by
                rw [alookup_append, hnone]
                simp [alookup, hst]
              obtain ⟨i, hi, hle⟩ := ih (v ++ [(s, v.length)]) hn.2 t c hmem' hc hnone'
              refine ⟨i, hi, ?_⟩
              have hlen : (v ++ [(s, v.length)]).length = v.length + 1 := by simp
              omega
            · rw [if_neg hcond]
              exact ih v hn.2 t c hmem' hc hnone

theorem addTokens_order (mc : Nat) (pre : List (String × Nat)) :
    ∀ (v : List (String × Nat)) (t1 t2 : String) (c1 c2 : Nat)
      (post : List (String × Nat)),
      ((pre ++ (t1, c1) :: post).map Prod.fst).Nodup →
      (t2, c2) ∈ post → mc ≤ c1 → mc ≤ c2 →
      alookup v t1 = none → alookup v t2 = none →
      ∃ i1 i2,
        alookup (addTokens mc (pre ++ (t1, c1) :: post) v) t1 = some i1 ∧
        alookup (addTokens mc (pre ++ (t1, c1) :: post) v) t2 = some i2 ∧
        i1 < i2 := by
  induction pre with
  | nil =>
      intro v t1 t2 c1 c2 post hn h2 hc1 hc2 hn1 hn2
      simp only [List.nil_append, List.map_cons, List.nodup_cons] at hn
      simp only [List.nil_append, addTokens]
      rw [if_pos ⟨hn1, hc1⟩]
      have ht12 : t1 ≠ t2 := by
        rintro rfl
        exact hn.1 (List.mem_map.2 ⟨(t1, c2), h2, rfl⟩)
      have h1v : alookup (v ++ [(t1, v.length)]) t1 = some v.length := by
        rw [alookup_append, hn1]
        simp [alookup]
      have h2v : alookup (v ++ [(t1, v.length)]) t2 = none := by
        rw [alookup_append, hn2]
        simp [alookup, ht12]
      obtain ⟨i2, hi2, hle⟩ :=
        addTokens_mem_lb mc post (v ++ [(t1, v.length)]) hn.2 t2 c2 h2 hc2 h2v
      refine ⟨v.length, i2, alookup_addTokens_of_some h1v, hi2, ?_⟩
      have hlen : (v ++ [(t1, v.length)]).length = v.length + 1 := by simp
      omega
  | cons sc pre' ih =>
      intro v t1 t2 c1 c2 post hn h2 hc1 hc2 hn1 hn2
      cases sc with
      | mk s cs =>
          simp only [List.cons_append, List.map_cons, List.nodup_cons] at hn
          have hs1 : s ≠ t1 := by
            rintro rfl
            exact hn.1 (by simp)
          have hs2 : s ≠ t2 := by
            rintro rfl
            refine hn.1 ?_
            simp only [List.map_append, List.mem_append, List.map_cons,
              List.mem_cons]
            right; right
            exact List.mem_map.2 ⟨(s, c2), h2, rfl⟩
          simp only [List.cons_append, addTokens]
          by_cases hcond : alookup v s = none ∧ mc ≤ cs
          · rw [if_pos hcond]
            have hn1' : alookup (v ++ [(s, v.length)]) t1 = none := by
              rw [alookup_append, hn1]
              simp [alookup, hs1]
            have hn2' : alookup (v ++ [(s, v.length)]) t2 = none := by
              rw [alookup_append, hn2]
              simp [alookup, hs2]
            exact ih _ t1 t2 c1 c2 post hn.2 h2 hc1 hc2 hn1' hn2'
          · rw [if_neg hcond]
            exact ih v t1 t2 c1 c2 post hn.2 h2 hc1 hc2 hn1 hn2

theorem addTokens_absent (mc : Nat) (t : String) (l : List (String × Nat)) :
    ∀ v : List (String × Nat), alookup v t = none →
      (∀ c, (t, c) ∈ l → c < mc) →
      alookup (addTokens mc l v) t = none := by
  induction l with
  | nil => intro v hv _; simpa [addTokens] using hv
  | cons sc rest ih =>
      intro v hv hlt
      cases sc with
      | mk s cs =>
          simp only [addTokens]
          by_cases hcond : alookup v s = none ∧ mc ≤ cs
          · rw [if_pos hcond]
            have hst : s ≠ t := by
              rintro rfl
              exact absurd hcond.2 (Nat.not_le.2 (hlt cs (by simp)))
            have hv' : alookup (v ++ [(s, v.length)]) t = none := by
              rw [alookup_append, hv]
              simp [alookup, hst]
            exact ih _ hv' (fun c hc => hlt c (List.mem_cons_of_mem _ hc))
          · rw [if_neg hcond]
            exact ih v hv (fun c hc => hlt c (List.mem_cons_of_mem _ hc))

theorem addTokens_inv (mc : Nat) (l : List (String × Nat)) :
    ∀ v : List (String × Nat),
      v.map Prod.snd = List.range v.length → (v.map Prod.fst).Nodup →
      (addTokens mc l v).map Prod.snd = List.range (addTokens mc l v).length ∧
      ((addTokens mc l v).map Prod.fst).Nodup := by
  induction l with
  | nil => intro v h1 h2; simpa [addTokens] using ⟨h1, h2⟩
  | cons sc rest ih =>
      intro v h1 h2
      cases sc with
      | mk s cs =>
          simp only [addTokens]
          by_cases hcond : alookup v s = none ∧ mc ≤ cs
          · rw [if_pos hcond]
            apply ih
            · simp [h1, List.range_succ]
            · have hs : s ∉ v.map Prod.fst := (alookup_eq_none v s).1 hcond.1
              simp [List.nodup_append, h2, hs]
          · rw [if_neg hcond]
            exact ih v h1 h2

/- ### Reverse-mapping and list-splitting lemmas -/

theorem alookup_swap {l : List (String × Nat)}
    (hk : (l.map Prod.fst).Nodup) (hv : (l.map Prod.snd).Nodup)
    (t : String) (i : Nat) :
    alookup l t = some i ↔
      alookup (l.map (fun kv => (kv.2, kv.1))) i = some t := by
  induction l with
  | nil => simp [alookup]
  | cons kv rest ih =>
      cases kv with
      | mk a b =>
          simp only [List.map_cons, List.nodup_cons] at hk hv
          simp only [List.map_cons, alookup]
          by_cases ha : a = t
          · subst ha
            rw [if_pos rfl]
            by_cases hb : b = i
            · subst hb
              simp
            · rw [if_neg hb]
              constructor
              · intro h
                exact absurd (Option.some.inj h) hb
              · intro h
                exfalso
                obtain ⟨⟨x, y⟩, hmem, heq⟩ := List.mem_map.1 (alookup_mem h)
                injection heq with e1 e2
                subst e1
                subst e2
                exact hk.1 (List.mem_map.2 ⟨(x, y), hmem, rfl⟩)
          · rw [if_neg ha]
            by_cases hb : b = i
            · subst hb
              rw [if_pos rfl]
              constructor
              · intro h
                exfalso
                exact hv.1 (List.mem_map.2 ⟨(t, b), alookup_mem h, rfl⟩)
              · intro h
                exact absurd (Option.some.inj h) (fun he => ha he)
            · rw [if_neg hb]
              exact ih hk.2 hv.2

theorem splitOfMem {α : Type} {a : α} {l : List α} (h : a ∈ l) :
    ∃ s t, l = s ++ a :: t := by
  induction l with
  | nil => simp at h
  | cons x xs ih =>
      rcases List.mem_cons.1 h with rfl | h'
      · exact ⟨[], xs, rfl⟩
      · obtain ⟨s, t, rfl⟩ := ih h'
        exact ⟨x :: s, t, rfl⟩

theorem map_fst_split {α β : Type} (l : List (α × β)) :
    ∀ (a : List α) (t : α) (b : List α), l.map Prod.fst = a ++ t :: b →
      ∃ la c lb, l = la ++ (t, c) :: lb ∧ la.map Prod.fst = a ∧
        lb.map Prod.fst = b := by
  induction l with
  | nil =>
      intro a t b h
      exfalso
      cases a <;> simp at h
  | cons kv rest ih =>
      intro a t b h
      cases kv with
      | mk k v =>
          cases a with
          | nil =>
              simp only [List.map_cons, List.nil_append] at h
              injection h with h1 h2
              exact ⟨[], v, rest, by simp [h1], rfl, h2⟩
          | cons a0 a' =>
              simp only [List.map_cons, List.cons_append] at h
              injection h with h1 h2
              obtain ⟨la, c, lb, hl, hla, hlb⟩ := ih a' t b h2
              exact ⟨(k, v) :: la, c, lb, by simp [hl], by simp [hla, h1], hlb⟩

theorem filter_split_lift {α : Type} (p : α → Bool) (l : List α) :
    ∀ (a : List α) (x y : α) (b : List α), l.filter p = a ++ x :: b → y ∈ b →
      ∃ s u, l = s ++ x :: u ∧ y ∈ u := by
  induction l with
  | nil =>
      intro a x y b h hy
      exfalso
      cases a <;> simp at h
  | cons z zs ih =>
      intro a x y b h hy
      rw [List.filter_cons] at h
      by_cases hz : p z
      · rw [if_pos hz] at h
        cases a with
        | nil =>
            simp only [List.nil_append] at h
            injection h with h1 h2
            subst h1
            have hyz : y ∈ zs := by
              have : y ∈ List.filter p zs := by rw [h2]; exact hy
              exact List.mem_of_mem_filter this
            exact ⟨[], zs, rfl, hyz⟩
        | cons a0 a' =>
            simp only [List.cons_append] at h
            injection h with h1 h2
            obtain ⟨s, u, rfl, hyu⟩ := ih a' x y b h2 hy
            exact ⟨z :: s, u, rfl, hyu⟩
      · rw [if_neg hz] at h
        obtain ⟨s, u, rfl, hyu⟩ := ih a x y b h hy
        exact ⟨z :: s, u, rfl, hyu⟩

/- ### Transform lemmas -/

theorem padSeq_length (L : Nat) (s : List Nat) : (padSeq L s).length = L := by
  simp only [padSeq, List.length_append, List.length_take, List.length_replicate]
  omega

theorem padSeq_eq_self {L : Nat} {s : List Nat} (h : s.length = L) :
    padSeq L s = s := by
  subst h
  simp [padSeq]

theorem numerizeSeq_allow (vocab : List (String × Nat)) (seq : List String)
    {u : Nat} (hu : alookup vocab token_unk = some u) :
    numerizeSeq vocab true seq =
      .ok (seq.map (fun t => (alookup vocab t).getD u)) := by
  simp [numerizeSeq, hu]

theorem numerizeAll_allow (vocab : List (String × Nat)) {u : Nat}
    (hu : alookup vocab token_unk = some u) :
    ∀ samples : List (List String),
      numerizeAll vocab true samples =
        .ok (samples.map
          (fun s => (wrapSeq s).map (fun t => (alookup vocab t).getD u))) := by
  intro samples
  induction samples with
  | nil => simp [numerizeAll]
  | cons s rest ih =>
      simp [numerizeAll, numerizeSeq_allow vocab _ hu, ih]

theorem lookupAll_ok (vocab : List (String × Nat)) :
    ∀ seq : List String, (∀ t ∈ seq, (alookup vocab t).isSome) → ∀ u : Nat,
      lookupAll vocab seq =
        .ok (seq.map (fun t => (alookup vocab t).getD u)) := by
  intro seq
  induction seq with
  | nil => intro _ u; simp [lookupAll]
  | cons t rest ih =>
      intro h u
      obtain ⟨i, hi⟩ := Option.isSome_iff_exists.1 (h t (by simp))
      simp [lookupAll, hi, ih (fun t' ht' => h t' (List.mem_cons_of_mem _ ht')) u]

theorem lookupAll_missing (vocab : List (String × Nat)) :
    ∀ seq : List String, (∃ t ∈ seq, alookup vocab t = none) →
      ∃ t ∈ seq, alookup vocab t = none ∧
        lookupAll vocab seq = .error (.keyError t) := by
  intro seq
  induction seq with
  | nil => rintro ⟨t, ht, _⟩; simp at ht
  | cons s rest ih =>
      rintro ⟨t, ht, hnone⟩
      by_cases hs : alookup vocab s = none
      · exact ⟨s, by simp, hs, by simp [lookupAll, hs]⟩
      · have ht' : t ∈ rest := by
          rcases List.mem_cons.1 ht with rfl | h'
          · exact absurd hnone hs
          · exact h'
        obtain ⟨t0, ht0, hn0, herr⟩ := ih ⟨t, ht', hnone⟩
        obtain ⟨i, hi⟩ := Option.ne_none_iff_exists'.1 hs
        refine ⟨t0, List.mem_cons_of_mem _ ht0, hn0, ?_⟩
        simp [lookupAll, hi, herr]

theorem numerizeAll_strict_missing (vocab : List (String × Nat)) :
    ∀ samples : List (List String),
      (∃ s ∈ samples, ∃ t ∈ wrapSeq s, alookup vocab t = none) →
      ∃ tm, alookup vocab tm = none ∧ (∃ s ∈ samples, tm ∈ wrapSeq s) ∧
        numerizeAll vocab false samples = .error (.keyError tm) := by
  intro samples
  induction samples with
  | nil => rintro ⟨s, hs, _⟩; simp at hs
  | cons s0 rest ih =>
      rintro ⟨s, hs, t, ht, hnone⟩
      by_cases h0 : ∃ t0 ∈ wrapSeq s0, alookup vocab t0 = none
      · obtain ⟨t0, ht0, hn0, herr⟩ := lookupAll_missing vocab (wrapSeq s0) h0
        refine ⟨t0, hn0, ⟨s0, by simp, ht0⟩, ?_⟩
        simp [numerizeAll, numerizeSeq, herr]
      · push_neg at h0
        have hall : ∀ t0 ∈ wrapSeq s0, (alookup vocab t0).isSome := by
          intro t0 hmem
          exact Option.ne_none_iff_isSome.1 (h0 t0 hmem)
        have hok := lookupAll_ok vocab (wrapSeq s0) hall 0
        have hrest : ∃ s ∈ rest, ∃ t ∈ wrapSeq s, alookup vocab t = none := by
          rcases List.mem_cons.1 hs with rfl | hs'
          · exact absurd hnone (h0 t ht)
          · exact ⟨s, hs', t, ht, hnone⟩
        obtain ⟨t0, hn0, ⟨s1, hs1, ht1⟩, herr⟩ := ih hrest
        refine ⟨t0, hn0, ⟨s1, List.mem_cons_of_mem _ hs1, ht1⟩, ?_⟩
        simp [numerizeAll, numerizeSeq, hok, herr]

theorem decodeSeq_map (v : List (String × Nat))
    (hk : (v.map Prod.fst).Nodup) (hv : (v.map Prod.snd).Nodup) {u : Nat} :
    ∀ seq : List String, (∀ t ∈ seq, (alookup v t).isSome) →
      decodeSeq (v.map (fun kv => (kv.2, kv.1)))
        (seq.map (fun t => (alookup v t).getD u)) = .ok seq := by
  intro seq
  induction seq with
  | nil => intro _; simp [decodeSeq]
  | cons t rest ih =>
      intro h
      obtain ⟨i, hi⟩ := Option.isSome_iff_exists.1 (h t (by simp))
      have hrev : alookup (v.map (fun kv => (kv.2, kv.1))) i = some t :=
        (alookup_swap hk hv t i).1 hi
      simp [decodeSeq, hi, hrev,
        ih (fun t' ht' => h t' (List.mem_cons_of_mem _ ht'))]

theorem transform_some_eq (p : SequenceProcessor) (samples : List (List String))
    (L : Nat) (mp : Option Nat) (seg : Bool) :
    p.transform samples (some L) mp seg =
      (p, mkOutput p.vocab2idx p.allow_unk L samples seg) := rfl

theorem transform_none_eq (p : SequenceProcessor) (samples : List (List String))
    (mp : Option Nat) (seg : Bool) (hne : samples.isEmpty = false) :
    p.transform samples none mp seg =
      ({ p with showed_seq_len_warning := true },
       mkOutput p.vocab2idx p.allow_unk (clampLen (maxLen samples) mp)
         samples seg) := by
  simp [SequenceProcessor.transform, hne]

theorem build_of_ne (q : SequenceProcessor)
    (corpus : List (List String × List String)) (h : q.vocab2idx ≠ []) :
    q.build_vocab_generator corpus = q := by
  have hfalse : q.vocab2idx.isEmpty = false := by
    rcases hq : q.vocab2idx with _ | ⟨x, xs⟩
    · exact absurd hq h
    · simp
  simp [SequenceProcessor.build_vocab_generator, hfalse]

/-- The processor obtained by constructing in the given mode and then
building the vocabulary from the given corpus. -/
def builtProcessor (mode : String) (mc : Nat) (fl : Bool) (au : Option Bool)
    (corpus : List (List String × List String)) : SequenceProcessor :=
  (SequenceProcessor.init mode mc fl au).build_vocab_generator corpus

theorem builtProcessor_vocab (mode : String) (mc : Nat) (fl : Bool)
    (au : Option Bool) (corpus : List (List String × List String)) :
    (builtProcessor mode mc fl au corpus).vocab2idx =
      addTokens mc (dictOfPairs (sortDesc (countCorpus fl corpus)))
        (initialVocab mode) ∧
    (builtProcessor mode mc fl au corpus).idx2vocab =
      dictOfPairs (((builtProcessor mode mc fl au corpus).vocab2idx).map
        (fun kv => (kv.2, kv.1))) := by
  constructor <;>
    simp [builtProcessor, SequenceProcessor.build_vocab_generator,
      SequenceProcessor.init]

/-- A processor with the unknown-token fallback switched off after
construction: the spec treats `allow_unk` as processor state that is
mutable post-construction (`__init__` itself always leaves it `True`). -/
def strictProc : SequenceProcessor :=
  { exampleProc with allow_unk := false }

/-- C9: whatever arguments the constructor receives — including an
`allow_unk` value passed through `**kwargs` — the processor's `allow_unk`
attribute is `true` immediately after construction (line 54 overwrites it
unconditionally). -/
theorem C9_dead_allow_unk (mode : String) (mc : Nat) (fl : Bool)
    (au : Option Bool) :
    (SequenceProcessor.init mode mc fl au).allow_unk = true := rfl

/-- C10: `transform` returns the processor unchanged except for the
`_showed_seq_len_warning` flag, which becomes `true` exactly when automatic
length inference ran (no `seq_length` and a non-empty batch) and is never
reset; `inverse_transform` changes no processor state at all.  In
particular `vocab2idx`, `idx2vocab` and every configuration field are
untouched by both. -/
theorem C10_frame (p : SequenceProcessor) (samples : List (List String))
    (seq_length max_position : Option Nat) (segment : Bool)
    (labels : List (List Nat)) (lengths : Option (List Nat)) :
    (p.transform samples seq_length max_position segment).1 =
      { p with showed_seq_len_warning :=
          p.showed_seq_len_warning ||
            (seq_length.isNone && !samples.isEmpty) } ∧
    (p.inverse_transform labels lengths).1 = p := by
  constructor
  · cases seq_length with
    | some L => simp [transform_some_eq]
    | none =>
        by_cases h : samples.isEmpty
        · simp [SequenceProcessor.transform, h]
        · have h' : samples.isEmpty = false := by
            revert h
            cases samples.isEmpty <;> simp
          rw [transform_none_eq p samples max_position segment h']
          simp [h']
  · rfl

/-- C7: a second call to `build_vocab_generator` on the same corpus, made
while the vocabulary mapping is non-empty, is a no-op. -/
theorem C7_idempotent (p : SequenceProcessor)
    (corpus : List (List String × List String))
    (h : (p.build_vocab_generator corpus).vocab2idx ≠ []) :
    (p.build_vocab_generator corpus).build_vocab_generator corpus =
      p.build_vocab_generator corpus :=
  build_of_ne _ corpus h

/-- C7 witness: a "text"-mode processor always has a non-empty vocabulary
after the first build (the reserved seeds), so rebuilding is a no-op. -/
theorem C7_witness :
    ((SequenceProcessor.init "text" 3 false none).build_vocab_generator
        []).build_vocab_generator [] =
      (SequenceProcessor.init "text" 3 false none).build_vocab_generator [] :=
  C7_idempotent (SequenceProcessor.init "text" 3 false none) [] (by decide)

/-- C2: on the spec's example corpus with `min_count = 2` the "text"-mode
vocabulary is exactly PAD:0, UNK:1, BOS:2, EOS:3, "b":4, "a":5, and
`transform([["a","b"]], seq_length=5)` returns exactly `[[2,5,4,3,0]]`. -/
theorem C2_end_to_end :
    exampleProc.vocab2idx =
      [(token_pad, 0), (token_unk, 1), (token_bos, 2), (token_eos, 3),
       ("b", 4), ("a", 5)] ∧
    (exampleProc.transform [["a", "b"]] (some 5) none false).2 =
      .ok { token_ids := [[2, 5, 4, 3, 0]], segment_ids := none } := by
  decide

/-- C1 counterexample: with the wrapped length `len(T) + 2` supplied to
`inverse_transform`, the round trip over `T = ["a"]` returns
`["a", EOS]`, not `["a"]` — the slice `[1:length]` keeps positions
`1 .. length-1`, which still include the EOS marker. -/
theorem C1_counterexample :
    (exampleProc.transform [["a"]] (some 3) none false).2 =
      .ok { token_ids := [[2, 5, 3]], segment_ids := none } ∧
    (exampleProc.inverse_transform [[2, 5, 3]] (some [3])).2 =
      .ok [["a", token_eos]] ∧
    (["a", token_eos] : List String) ≠ ["a"] := by
  decide

/-- C1 (amended): for a sequence `T` of in-vocabulary tokens — with the
reserved UNK/BOS/EOS present and `idx2vocab` the exact reverse of an
injective `vocab2idx` — applying `inverse_transform` to
`transform([T], seq_length = len T + 2)` with supplied length `len T + 1`
(not the wrapped length `len T + 2`, which would also keep the EOS token)
recovers exactly `T`. -/
theorem C1_round_trip (p : SequenceProcessor) (T : List String)
    (hallow : p.allow_unk = true)
    (hk : (p.vocab2idx.map Prod.fst).Nodup)
    (hv : (p.vocab2idx.map Prod.snd).Nodup)
    (hidx : p.idx2vocab = p.vocab2idx.map (fun kv => (kv.2, kv.1)))
    (hunk : (alookup p.vocab2idx token_unk).isSome)
    (hbos : (alookup p.vocab2idx token_bos).isSome)
    (heos : (alookup p.vocab2idx token_eos).isSome)
    (hT : ∀ t ∈ T, (alookup p.vocab2idx t).isSome) :
    ∃ out : TransformOutput,
      (p.transform [T] (some (T.length + 2)) none false).2 = .ok out ∧
      (p.inverse_transform out.token_ids (some [T.length + 1])).2 =
        .ok [T] := by
  obtain ⟨u, hu⟩ := Option.isSome_iff_exists.1 hunk
  have hwrap : ∀ t ∈ wrapSeq T, (alookup p.vocab2idx t).isSome := by
    intro t ht
    simp [wrapSeq] at ht
    rcases ht with rfl | h1 | rfl
    · exact hbos
    · exact hT t h1
    · exact heos
  have hlen : ((wrapSeq T).map
      (fun t => (alookup p.vocab2idx t).getD u)).length = T.length + 2 := by
    simp [wrapSeq]
  have hnum : numerizeAll p.vocab2idx p.allow_unk [T] =
      .ok [(wrapSeq T).map (fun t => (alookup p.vocab2idx t).getD u)] := by
    rw [hallow]
    simp [numerizeAll, numerizeSeq_allow _ _ hu]
  refine ⟨{ token_ids :=
              [(wrapSeq T).map (fun t => (alookup p.vocab2idx t).getD u)]
            segment_ids := none }, ?_, ?_⟩
  · rw [transform_some_eq]
    simp only [mkOutput, hnum]
    simp [padSeq_eq_self hlen]
  · simp only [SequenceProcessor.inverse_transform]
    have hdec : decodeSeq p.idx2vocab
        ((wrapSeq T).map (fun t => (alookup p.vocab2idx t).getD u)) =
        .ok (wrapSeq T) := by
      rw [hidx]
      exact decodeSeq_map p.vocab2idx hk hv (wrapSeq T) hwrap
    have hslice : List.take T.length (wrapSeq T).tail = T := by
      show List.take T.length (T ++ [token_eos]) = T
      exact List.take_left T [token_eos]
    simp [inverseGo, hdec, hslice]

/-- C1 witness: the amended round trip at `T = ["a"]` on the example
processor. -/
theorem C1_witness :
    ∃ out : TransformOutput,
      (exampleProc.transform [["a"]] (some 3) none false).2 = .ok out ∧
      (exampleProc.inverse_transform out.token_ids (some [2])).2 =
        .ok [["a"]] :=
  C1_round_trip exampleProc ["a"] (by decide) (by decide) (by decide)
    (by decide) (by decide) (by decide) (by decide) (by decide)

/-- C3 counterexample: for the batch `[["a"]]` with no `seq_length`, the
returned row has width 1 — the maximum of the raw (pre-wrap) sample
lengths — not the wrapped maximum `1 + 2 = 3` the claim states; the
wrapped row `[BOS, a, EOS]` is post-truncated to `[BOS]`. -/
theorem C3_counterexample :
    (exampleProc.transform [["a"]] none none false).2 =
      .ok { token_ids := [[2]], segment_ids := none } ∧
    ([2] : List Nat).length = 1 ∧ (1 : Nat) ≠ ["a"].length + 2 := by
  decide

/-- C3 (amended): when `seq_length` is not given (non-empty batch,
`allow_unk` on, UNK present), the effective width is the maximum RAW
sequence length across the batch, taken BEFORE affixing BOS/EOS, clamped
to a truthy (non-zero) `max_position` when it exceeds it; the returned
token-id array has shape `(batch_size, effective_length)`. -/
theorem C3_shape (p : SequenceProcessor) (samples : List (List String))
    (max_position : Option Nat)
    (hne : samples ≠ [])
    (hallow : p.allow_unk = true)
    (hunk : (alookup p.vocab2idx token_unk).isSome) :
    ∃ out : TransformOutput,
      (p.transform samples none max_position false).2 = .ok out ∧
      out.token_ids.length = samples.length ∧
      ∀ r ∈ out.token_ids,
        r.length = clampLen (maxLen samples) max_position := by
  obtain ⟨u, hu⟩ := Option.isSome_iff_exists.1 hunk
  have hemp : samples.isEmpty = false := by
    cases samples with
    | nil => exact absurd rfl hne
    | cons s rest => rfl
  have hnum : numerizeAll p.vocab2idx p.allow_unk samples =
      .ok (samples.map
        (fun s => (wrapSeq s).map (fun t => (alookup p.vocab2idx t).getD u))) := by
    rw [hallow]
    exact numerizeAll_allow p.vocab2idx hu samples
  have hout : (p.transform samples none max_position false).2 =
      .ok { token_ids :=
              (samples.map (fun s =>
                (wrapSeq s).map (fun t => (alookup p.vocab2idx t).getD u))).map
                (padSeq (clampLen (maxLen samples) max_position))
            segment_ids := none } := by
    rw [transform_none_eq p samples max_position false hemp]
    simp [mkOutput, hnum]
  refine ⟨_, hout, ?_, ?_⟩
  · simp
  · intro r hr
    obtain ⟨x, _, rfl⟩ := List.mem_map.1 hr
    exact padSeq_length _ x

/-- C3 witness: a two-sample batch with raw maximum 3 clamped by
`max_position = 2`. -/
theorem C3_witness :
    ∃ out : TransformOutput,
      (exampleProc.transform [["a"], ["a", "b", "a"]] none (some 2)
          false).2 = .ok out ∧
      out.token_ids.length = 2 ∧
      ∀ r ∈ out.token_ids,
        r.length = clampLen (maxLen [["a"], ["a", "b", "a"]]) (some 2) :=
  C3_shape exampleProc [["a"], ["a", "b", "a"]] (some 2) (by decide)
    (by decide) (by decide)

/-- C8 counterexample: with the fallback disabled, two different batches
whose sequences differ but miss the same token raise the IDENTICAL error
value `KeyError("zz")` — the lookup error identifies the unmappable token
but carries nothing identifying the sequence, contrary to the claim. -/
theorem C8_counterexample :
    (strictProc.transform [["zz"]] (some 3) none false).2 =
      .error (.keyError "zz") ∧
    (strictProc.transform [["a", "zz"], ["b"]] (some 3) none false).2 =
      .error (.keyError "zz") := by
  decide

/-- C8 (amended): during transform every vocabulary token of a wrapped
sequence maps to its index; with `allow_unk` on, an absent token maps to
the UNK index instead of raising; with `allow_unk` off, transform returns
no result and fails with a lookup error that identifies the unmappable
token (but not the sequence). -/
theorem C8_unknown_token_policy (p : SequenceProcessor) (seq : List String)
    (samples : List (List String)) (L : Nat) (mp : Option Nat) :
    (∀ u, alookup p.vocab2idx token_unk = some u →
      numerizeSeq p.vocab2idx true seq =
        .ok (seq.map (fun t => (alookup p.vocab2idx t).getD u))) ∧
    ((∀ t ∈ seq, (alookup p.vocab2idx t).isSome) →
      numerizeSeq p.vocab2idx false seq =
        .ok (seq.map (fun t => (alookup p.vocab2idx t).getD 0))) ∧
    (p.allow_unk = false →
      (∃ s ∈ samples, ∃ t ∈ wrapSeq s, alookup p.vocab2idx t = none) →
      ∃ tm, alookup p.vocab2idx tm = none ∧
        (∃ s ∈ samples, tm ∈ wrapSeq s) ∧
        (p.transform samples (some L) mp false).2 =
          .error (.keyError tm)) := by
  refine ⟨?_, ?_, ?_⟩
  · intro u hu
    exact numerizeSeq_allow p.vocab2idx seq hu
  · intro hall
    have h := lookupAll_ok p.vocab2idx seq hall 0
    simpa [numerizeSeq] using h
  · intro hfalse hmiss
    obtain ⟨tm, hn, hin, herr⟩ :=
      numerizeAll_strict_missing p.vocab2idx samples hmiss
    refine ⟨tm, hn, hin, ?_⟩
    rw [transform_some_eq]
    simp only [mkOutput, hfalse, herr]

/-- C8 witness: both fallback behaviours and the strict-mode error on
concrete inputs. -/
theorem C8_witness :
    (numerizeSeq exampleProc.vocab2idx true ["a", "zz"] =
      .ok (["a", "zz"].map
        (fun t => (alookup exampleProc.vocab2idx t).getD 1))) ∧
    (numerizeSeq exampleProc.vocab2idx false ["a", "b"] =
      .ok (["a", "b"].map
        (fun t => (alookup exampleProc.vocab2idx t).getD 0))) ∧
    (∃ tm, alookup strictProc.vocab2idx tm = none ∧
      (∃ s ∈ [["zz"]], tm ∈ wrapSeq s) ∧
      (strictProc.transform [["zz"]] (some 5) none false).2 =
        .error (.keyError tm)) :=
  ⟨(C8_unknown_token_policy exampleProc ["a", "zz"] [] 0 none).1 1 (by decide),
   (C8_unknown_token_policy exampleProc ["a", "b"] [] 0 none).2.1 (by decide),
   (C8_unknown_token_policy strictProc [] [["zz"]] 5 none).2.2 (by decide)
     ⟨["zz"], by decide, "zz", by decide, by decide⟩⟩

/-- C4: after building in mode "text" from any corpus, PAD/UNK/BOS/EOS map
to 0/1/2/3 regardless of corpus content, the assigned indices are exactly
`0 .. |V|-1` (unique and contiguous, in entry order), and `idx2vocab` is
the exact inverse of `vocab2idx`. -/
theorem C4_reserved_contiguous (corpus : List (List String × List String))
    (mc : Nat) (fl : Bool) (au : Option Bool) :
    alookup (builtProcessor "text" mc fl au corpus).vocab2idx token_pad =
      some 0 ∧
    alookup (builtProcessor "text" mc fl au corpus).vocab2idx token_unk =
      some 1 ∧
    alookup (builtProcessor "text" mc fl au corpus).vocab2idx token_bos =
      some 2 ∧
    alookup (builtProcessor "text" mc fl au corpus).vocab2idx token_eos =
      some 3 ∧
    (builtProcessor "text" mc fl au corpus).vocab2idx.map Prod.snd =
      List.range (builtProcessor "text" mc fl au corpus).vocab2idx.length ∧
    ((builtProcessor "text" mc fl au corpus).vocab2idx.map Prod.fst).Nodup ∧
    (∀ (t : String) (i : Nat),
      alookup (builtProcessor "text" mc fl au corpus).vocab2idx t = some i ↔
        alookup (builtProcessor "text" mc fl au corpus).idx2vocab i =
          some t) := by
  obtain ⟨hV, hI⟩ := builtProcessor_vocab "text" mc fl au corpus
  have hseed1 : (initialVocab "text").map Prod.snd =
      List.range (initialVocab "text").length := by decide
  have hseed2 : ((initialVocab "text").map Prod.fst).Nodup := by decide
  have hinv := addTokens_inv mc
    (dictOfPairs (sortDesc (countCorpus fl corpus))) (initialVocab "text")
    hseed1 hseed2
  have hkeys :
      ((builtProcessor "text" mc fl au corpus).vocab2idx.map Prod.fst).Nodup := by
    rw [hV]
    exact hinv.2
  have hrange :
      (builtProcessor "text" mc fl au corpus).vocab2idx.map Prod.snd =
        List.range (builtProcessor "text" mc fl au corpus).vocab2idx.length := by
    rw [hV]
    exact hinv.1
  have hvals :
      ((builtProcessor "text" mc fl au corpus).vocab2idx.map Prod.snd).Nodup := by
    rw [hrange]
    exact List.nodup_range _
  have hswapkeys :
      (((builtProcessor "text" mc fl au corpus).vocab2idx.map
        (fun kv => (kv.2, kv.1))).map Prod.fst).Nodup := by
    rw [List.map_map]
    exact hvals
  have hidr : (builtProcessor "text" mc fl au corpus).idx2vocab =
      (builtProcessor "text" mc fl au corpus).vocab2idx.map
        (fun kv => (kv.2, kv.1)) := by
    rw [hI, dictOfPairs_eq_self _ hswapkeys]
  refine ⟨?_, ?_, ?_, ?_, hrange, hkeys, ?_⟩
  · rw [hV]
    exact alookup_addTokens_of_some (by decide)
  · rw [hV]
    exact alookup_addTokens_of_some (by decide)
  · rw [hV]
    exact alookup_addTokens_of_some (by decide)
  · rw [hV]
    exact alookup_addTokens_of_some (by decide)
  · intro t i
    rw [hidr]
    exact alookup_swap hkeys hvals t i

/-- C5: for any corpus and any non-reserved token, with `min_count ≥ 1`: a
token whose occurrence count in the counted stream is below `min_count` is
absent from the built vocabulary, and one whose count reaches `min_count`
is present. -/
theorem C5_frequency_threshold (mode : String)
    (corpus : List (List String × List String)) (mc : Nat) (fl : Bool)
    (au : Option Bool) (t : String)
    (hmc : 1 ≤ mc)
    (hres : alookup (initialVocab mode) t = none) :
    (countTok (tokenStream fl corpus) t < mc →
      alookup (builtProcessor mode mc fl au corpus).vocab2idx t = none) ∧
    (mc ≤ countTok (tokenStream fl corpus) t →
      (alookup (builtProcessor mode mc fl au corpus).vocab2idx t).isSome) := by
  obtain ⟨hV, _⟩ := builtProcessor_vocab mode mc fl au corpus
  have hTabN : ((countCorpus fl corpus).map Prod.fst).Nodup :=
    nodup_keys_countCorpus fl corpus
  have hSortN : ((sortDesc (countCorpus fl corpus)).map Prod.fst).Nodup := by
    have hperm := (sortDesc_perm (countCorpus fl corpus)).map Prod.fst
    exact hperm.nodup_iff.2 hTabN
  have hS : dictOfPairs (sortDesc (countCorpus fl corpus)) =
      sortDesc (countCorpus fl corpus) := dictOfPairs_eq_self _ hSortN
  rw [hV, hS]
  constructor
  · intro hlt
    refine addTokens_absent mc t _ _ hres ?_
    intro c hc
    have hmem : (t, c) ∈ countCorpus fl corpus := mem_sortDesc.1 hc
    have hsome := alookup_of_mem_nodup hTabN hmem
    rw [alookup_countCorpus] at hsome
    by_cases hin : t ∈ tokenStream fl corpus
    · rw [if_pos hin] at hsome
      injection hsome with h'
      omega
    · rw [if_neg hin] at hsome
      simp at hsome
  · intro hge
    have hin : t ∈ tokenStream fl corpus := by
      rw [countTok_pos]
      omega
    have hlook : alookup (countCorpus fl corpus) t =
        some (countTok (tokenStream fl corpus) t) := by
      rw [alookup_countCorpus, if_pos hin]
    have hmem : (t, countTok (tokenStream fl corpus) t) ∈
        sortDesc (countCorpus fl corpus) :=
      mem_sortDesc.2 (alookup_mem hlook)
    obtain ⟨i, hi, _⟩ := addTokens_mem_lb mc _ (initialVocab mode) hSortN t _
      hmem hge hres
    simp [hi]

/-- C5 witness: in the example corpus, "a" occurs twice, meets the
threshold 2, and is present in the vocabulary. -/
theorem C5_witness :
    (countTok (tokenStream false exampleCorpus) "a" < 2 →
      alookup (builtProcessor "text" 2 false none exampleCorpus).vocab2idx
        "a" = none) ∧
    (2 ≤ countTok (tokenStream false exampleCorpus) "a" →
      (alookup (builtProcessor "text" 2 false none exampleCorpus).vocab2idx
        "a").isSome) :=
  C5_frequency_threshold "text" exampleCorpus 2 false none "a" (by decide)
    (by decide)

/-- C6: among non-reserved tokens meeting the threshold, a strictly more
frequent token always receives a smaller vocabulary index, and two tokens
of equal frequency receive indices in the order of their first
encounter during the corpus pass. -/
theorem C6_stable_tie_break (mode : String)
    (corpus : List (List String × List String)) (mc : Nat) (fl : Bool)
    (au : Option Bool) (t1 t2 : String)
    (hmc : 1 ≤ mc)
    (hres1 : alookup (initialVocab mode) t1 = none)
    (hres2 : alookup (initialVocab mode) t2 = none)
    (hc1 : mc ≤ countTok (tokenStream fl corpus) t1)
    (hc2 : mc ≤ countTok (tokenStream fl corpus) t2)
    (horder :
      (countTok (tokenStream fl corpus) t1 =
          countTok (tokenStream fl corpus) t2 ∧
        ∃ l1 l2, tokenStream fl corpus = l1 ++ l2 ∧ t1 ∈ l1 ∧ t2 ∉ l1) ∨
      countTok (tokenStream fl corpus) t2 <
        countTok (tokenStream fl corpus) t1) :
    ∃ i1 i2,
      alookup (builtProcessor mode mc fl au corpus).vocab2idx t1 = some i1 ∧
      alookup (builtProcessor mode mc fl au corpus).vocab2idx t2 = some i2 ∧
      i1 < i2 := by
  obtain ⟨hV, _⟩ := builtProcessor_vocab mode mc fl au corpus
  have hTabN : ((countCorpus fl corpus).map Prod.fst).Nodup :=
    nodup_keys_countCorpus fl corpus
  have hSortN : ((sortDesc (countCorpus fl corpus)).map Prod.fst).Nodup := by
    have hperm := (sortDesc_perm (countCorpus fl corpus)).map Prod.fst
    exact hperm.nodup_iff.2 hTabN
  have hS : dictOfPairs (sortDesc (countCorpus fl corpus)) =
      sortDesc (countCorpus fl corpus) := dictOfPairs_eq_self _ hSortN
  rw [hV, hS]
  have hin1 : t1 ∈ tokenStream fl corpus := by
    rw [countTok_pos]
    omega
  have hin2 : t2 ∈ tokenStream fl corpus := by
    rw [countTok_pos]
    omega
  have hlook1 : alookup (countCorpus fl corpus) t1 =
      some (countTok (tokenStream fl corpus) t1) := by
    rw [alookup_countCorpus, if_pos hin1]
  have hlook2 : alookup (countCorpus fl corpus) t2 =
      some (countTok (tokenStream fl corpus) t2) := by
    rw [alookup_countCorpus, if_pos hin2]
  obtain ⟨pre, post, hsplit, hpost⟩ :
      ∃ pre post,
        sortDesc (countCorpus fl corpus) =
          pre ++ (t1, countTok (tokenStream fl corpus) t1) :: post ∧
        (t2, countTok (tokenStream fl corpus) t2) ∈ post := by
    rcases horder with ⟨heqc, l1, l2, hstream, h1l, h2l⟩ | hlt
    · -- stable case: locate both entries in the count table, filter at the
      -- shared count, use stability of the sort on that filter, and lift
      -- the filtered split back to the sorted list
      have hbump : countCorpus fl corpus = bumpList (bumpList [] l1) l2 := by
        rw [countCorpus_eq_bumpList, hstream, bumpList_append]
      have h1M : t1 ∈ (bumpList [] l1).map Prod.fst := by
        rw [← alookup_isSome, alookup_bumpList_isSome]
        exact Or.inr h1l
      have h2M : t2 ∉ (bumpList [] l1).map Prod.fst := by
        rw [← alookup_isSome, alookup_bumpList_isSome]
        simp [alookup, h2l]
      obtain ⟨k1, k2, hk⟩ := splitOfMem h1M
      obtain ⟨ext, hext⟩ := keys_bumpList l2 (bumpList [] l1)
      have hkeys : (countCorpus fl corpus).map Prod.fst =
          k1 ++ t1 :: (k2 ++ ext) := by
        rw [hbump, hext, hk]
        simp
      obtain ⟨e1, c1x, e2, hTab, hke1, hke2⟩ :=
        map_fst_split (countCorpus fl corpus) k1 t1 (k2 ++ ext) hkeys
      have hc1x : c1x = countTok (tokenStream fl corpus) t1 := by
        have hmem : (t1, c1x) ∈ countCorpus fl corpus := by
          rw [hTab]
          simp
        have hsome := alookup_of_mem_nodup hTabN hmem
        rw [hlook1] at hsome
        exact (Option.some.inj hsome).symm
      have ht12 : t1 ≠ t2 := by
        rintro rfl
        exact h2l h1l
      have h2keys : t2 ∈ (countCorpus fl corpus).map Prod.fst := by
        rw [← alookup_isSome, hlook2]
        rfl
      have h2e2 : t2 ∈ e2.map Prod.fst := by
        have h2' : t2 ∈ k1 ++ t1 :: (k2 ++ ext) := by
          rw [← hkeys]
          exact h2keys
        rcases List.mem_append.1 h2' with h | h
        · exfalso
          apply h2M
          rw [hk]
          exact List.mem_append_left _ h
        · rcases List.mem_cons.1 h with heq | h
          · exact absurd heq.symm ht12
          · rw [hke2]
            exact h
      obtain ⟨⟨tx, c2x⟩, h2mem, h2eq⟩ := List.mem_map.1 h2e2
      simp only at h2eq
      rw [h2eq] at h2mem
      have hc2x : c2x = countTok (tokenStream fl corpus) t2 := by
        have hmem : (t2, c2x) ∈ countCorpus fl corpus := by
          rw [hTab]
          exact List.mem_append_right _ (List.mem_cons_of_mem _ h2mem)
        have hsome := alookup_of_mem_nodup hTabN hmem
        rw [hlook2] at hsome
        exact (Option.some.inj hsome).symm
      have hcond : hasCount (countTok (tokenStream fl corpus) t1)
          (t1, c1x) = true := by
        simp [hasCount, hc1x]
      have hfil : (countCorpus fl corpus).filter
          (hasCount (countTok (tokenStream fl corpus) t1)) =
          e1.filter (hasCount (countTok (tokenStream fl corpus) t1)) ++
            (t1, c1x) ::
              e2.filter (hasCount (countTok (tokenStream fl corpus) t1)) := by
        rw [hTab, List.filter_append, List.filter_cons, if_pos hcond]
      have h2fil : (t2, c2x) ∈
          e2.filter (hasCount (countTok (tokenStream fl corpus) t1)) := by
        rw [List.mem_filter]
        refine ⟨h2mem, ?_⟩
        simp [hasCount, hc2x, heqc]
      have hsfil : (sortDesc (countCorpus fl corpus)).filter
          (hasCount (countTok (tokenStream fl corpus) t1)) =
          e1.filter (hasCount (countTok (tokenStream fl corpus) t1)) ++
            (t1, c1x) ::
              e2.filter (hasCount (countTok (tokenStream fl corpus) t1)) := by
        rw [filter_sortDesc]
        exact hfil
      obtain ⟨s, uu, hsu, h2su⟩ :=
        filter_split_lift (hasCount (countTok (tokenStream fl corpus) t1))
          (sortDesc (countCorpus fl corpus))
          (e1.filter (hasCount (countTok (tokenStream fl corpus) t1)))
          (t1, c1x) (t2, c2x)
          (e2.filter (hasCount (countTok (tokenStream fl corpus) t1)))
          hsfil h2fil
      rw [hc1x] at hsu
      rw [hc2x] at h2su
      exact ⟨s, uu, hsu, h2su⟩
    · -- frequency case: both entries are in the sorted list; descending
      -- sortedness forces the more frequent one to come first
      have hne : t1 ≠ t2 := by
        rintro rfl
        omega
      have hmem1 : (t1, countTok (tokenStream fl corpus) t1) ∈
          sortDesc (countCorpus fl corpus) :=
        mem_sortDesc.2 (alookup_mem hlook1)
      have hmem2 : (t2, countTok (tokenStream fl corpus) t2) ∈
          sortDesc (countCorpus fl corpus) :=
        mem_sortDesc.2 (alookup_mem hlook2)
      obtain ⟨s, uu, hsu⟩ := splitOfMem hmem1
      have h2su : (t2, countTok (tokenStream fl corpus) t2) ∈ s ∨
          (t2, countTok (tokenStream fl corpus) t2) ∈ uu := by
        have h2 := hmem2
        rw [hsu] at h2
        rcases List.mem_append.1 h2 with h | h
        · exact Or.inl h
        · rcases List.mem_cons.1 h with heq | h
          · exfalso
            injection heq with e1 e2
            exact hne e1.symm
          · exact Or.inr h
      rcases h2su with hs | huu
      · exfalso
        obtain ⟨s1, s2, hseq⟩ := splitOfMem hs
        have hpw := sortDesc_pairwise (countCorpus fl corpus)
        rw [hsu, hseq] at hpw
        have h3 := (List.pairwise_append.1 hpw).2.2
        have hrel := h3 (t2, countTok (tokenStream fl corpus) t2) (by simp)
          (t1, countTok (tokenStream fl corpus) t1) (by simp)
        simp only at hrel
        omega
      · exact ⟨s, uu, hsu, huu⟩
  have hn : ((pre ++ (t1, countTok (tokenStream fl corpus) t1) :: post).map
      Prod.fst).Nodup := by
    rw [← hsplit]
    exact hSortN
  rw [hsplit]
  exact addTokens_order mc pre (initialVocab mode) t1 t2 _ _ post hn hpost
    hc1 hc2 hres1 hres2

/-- C6 witness: in the example corpus, "b" (3 occurrences) precedes "a"
(2 occurrences) in the vocabulary. -/
theorem C6_witness :
    ∃ i1 i2,
      alookup (builtProcessor "text" 2 false none exampleCorpus).vocab2idx
        "b" = some i1 ∧
      alookup (builtProcessor "text" 2 false none exampleCorpus).vocab2idx
        "a" = some i2 ∧
      i1 < i2 :=
  C6_stable_tie_break "text" exampleCorpus 2 false none "b" "a" (by decide)
    (by decide) (by decide) (by decide) (by decide) (Or.inr (by decide))
